import Mathlib

/-!
Verification of the patch synthesis and sanitization pipeline of the
bug-fixing agent repository (src/main.py).  Text is modelled as `List Char`
and a file's content as a list of lines, each line retaining its trailing
newline, exactly as Python's `readlines` produces them.  The functions
below are shallow embeddings of the Python functions of src/main.py,
keeping their names where Lean allows.
-/

/-! ## Python string primitives -/

/-- ASCII whitespace as recognised by Python's str.lstrip / str.rstrip /
str.strip (space, tab, newline, carriage return, vertical tab, form feed).
Only the ASCII part of Python's whitespace set is modelled; every input in
this development is ASCII. -/
def isPySpace (c : Char) : Bool :=
  c = ' ' || c = '\t' || c = '\n' || c = '\r' || c = Char.ofNat 11 || c = Char.ofNat 12

/-- Python str.lstrip with no argument. -/
def pyLstrip (s : List Char) : List Char :=
  s.dropWhile isPySpace

/-- Python str.rstrip with no argument. -/
def pyRstrip (s : List Char) : List Char :=
  (s.reverse.dropWhile isPySpace).reverse

/-- Python str.strip with no argument. -/
def pyStrip (s : List Char) : List Char :=
  pyRstrip (pyLstrip s)

/-- Python's substring containment test (the `in` operator on strings). -/
def containsSub (pat : List Char) : List Char → Bool
  | [] => pat.isEmpty
  | c :: t => pat.isPrefixOf (c :: t) || containsSub pat t

/-- Index of the first occurrence of `pat` in `s`, as Python's str.find /
the leftmost-match rule of re.search. -/
def findFrom (pat : List Char) : List Char → Option Nat
  | [] => if pat.isEmpty then some 0 else none
  | c :: t =>
    if pat.isPrefixOf (c :: t) then some 0
    else (findFrom pat t).map (· + 1)

/-- Python file.readlines: split a text into lines, each keeping its
trailing newline; a final fragment without a newline is its own line. -/
def pyReadlinesAux (acc : List Char) : List Char → List (List Char)
  | [] => if acc.isEmpty then [] else [acc.reverse]
  | c :: rest =>
    if c = '\n' then (acc.reverse ++ ['\n']) :: pyReadlinesAux [] rest
    else pyReadlinesAux (c :: acc) rest

/-- Python file.readlines on a whole text. -/
def pyReadlines (s : List Char) : List (List Char) :=
  pyReadlinesAux [] s

/-! ## Docstring stripper (remove_docstrings_from_patch, src/main.py 192-264) -/

/-- The triple double quote delimiter. -/
def dq : List Char := ['"', '"', '"']

/-- The triple single quote delimiter (three characters of code 39). -/
def sqt : List Char := [Char.ofNat 39, Char.ofNat 39, Char.ofNat 39]

/-- Scan state of the docstring stripper: the two mutable loop variables
in_multiline_docstring and docstring_quotes of the source. -/
structure StripState where
  inMultilineDocstring : Bool
  docstringQuotes : Option (List Char)
deriving DecidableEq

/-- State before the scan: not inside a docstring, no active delimiter. -/
def initialStripState : StripState := ⟨false, none⟩

/-- One iteration of the loop of remove_docstrings_from_patch over a single
line: returns the state after the line and whether the line is kept.
Mirrors src/main.py lines 210-255. -/
def stripStep (st : StripState) (line : List Char) : StripState × Bool :=
  if List.isPrefixOf ['+'] line then
    let added := line.drop 1
    let stripped := added.dropWhile isPySpace
    if st.inMultilineDocstring then
      match st.docstringQuotes with
      | some q => if !q.isEmpty && containsSub q added then (⟨false, none⟩, false) else (st, false)
      | none => (st, false)
    else
      if dq.isPrefixOf stripped && dq.isSuffixOf stripped && decide (6 ≤ stripped.length) then
        (st, false)
      else if sqt.isPrefixOf stripped && sqt.isSuffixOf stripped && decide (6 ≤ stripped.length) then
        (st, false)
      else if dq.isPrefixOf stripped then
        if containsSub dq (stripped.drop dq.length) then (⟨false, none⟩, false)
        else (⟨true, some dq⟩, false)
      else if sqt.isPrefixOf stripped then
        if containsSub sqt (stripped.drop sqt.length) then (⟨false, none⟩, false)
        else (⟨true, some sqt⟩, false)
      else (st, true)
  else (st, true)

/-- The full scan of remove_docstrings_from_patch: the kept lines in their
original order, together with the final state. -/
def stripRun (st : StripState) : List (List Char) → List (List Char) × StripState
  | [] => ([], st)
  | l :: ls =>
    let s := stripStep st l
    let r := stripRun s.1 ls
    if s.2 then (l :: r.1, r.2) else r

/-- The line-level core of remove_docstrings_from_patch: input lines to
output (kept) lines. -/
def remove_docstrings_from_patch (lines : List (List Char)) : List (List Char) :=
  (stripRun initialStripState lines).1

/-! ## Code extractor (extract_code_from_output, src/main.py 154-175) -/

/-- A fence marker: three backticks. -/
def fence : List Char := "```".toList

/-- Opening of a python-tagged fenced block, tag immediately followed by a
newline, as in the regex of src/main.py line 156. -/
def pyOpen : List Char := "```python\n".toList

/-- Opening of an untagged fenced block, fence immediately followed by a
newline, as in the regex of src/main.py line 160. -/
def plainOpen : List Char := "```\n".toList

/-- Semantics of re.search of a pattern open(.*?)close with DOTALL: the
leftmost occurrence of the opening, then the nearest closing fence after
it; the group is the text between. -/
def searchBlock (opn : List Char) (s : List Char) : Option (List Char) :=
  match findFrom opn s with
  | none => none
  | some i =>
    let rest := s.drop (i + opn.length)
    match findFrom fence rest with
    | none => none
    | some j => some (rest.take j)

/-- The recognised code-start tokens of src/main.py lines 164-169 applied
to the stripped blob. -/
def startsCodeToken (t : List Char) : Bool :=
  List.isPrefixOf "class".toList t || List.isPrefixOf "def".toList t ||
    List.isPrefixOf "import".toList t || List.isPrefixOf dq t

/-- Shallow embedding of extract_code_from_output: a python-tagged fenced
block, else an untagged fenced block, else the blob itself (the source
returns the blob both when a code-start token is recognised and, after a
debug print, when none is). -/
def extract_code_from_output (output : List Char) : List Char :=
  match searchBlock pyOpen output with
  | some code => code
  | none =>
    match searchBlock plainOpen output with
    | some code => code
    | none =>
      if startsCodeToken (pyStrip output) then output else output

/-- Modelled from the spec: section 4.1 of the specification demands that
the extractor signal ExtractionError (here: none) when no fenced block is
found and the trimmed blob starts with no recognised code-start token.
This follows the specification's words; it is the reference against which
the code's extractor is compared. -/
def extract_code_spec (output : List Char) : Option (List Char) :=
  match searchBlock pyOpen output with
  | some code => some code
  | none =>
    match searchBlock plainOpen output with
    | some code => some code
    | none =>
      if startsCodeToken (pyStrip output) then some output else none

/-! ## Markdown cleanup (clean_code_output, src/main.py 178-189) -/

/-- The python-tagged fence marker stripped by clean_code_output. -/
def pyFenceTag : List Char := "```python".toList

/-- Shallow embedding of clean_code_output: strip a leading python-tagged
fence, then a leading bare fence, then a trailing bare fence, with the
whitespace stripping of the source. -/
def clean_code_output (code : List Char) : List Char :=
  let c1 := if pyFenceTag.isPrefixOf code then pyLstrip (code.drop pyFenceTag.length) else code
  let c2 := if fence.isPrefixOf c1 then pyLstrip (c1.drop fence.length) else c1
  let c3 := if fence.isSuffixOf c2 then pyRstrip (c2.take (c2.length - fence.length)) else c2
  c3

/-! ## Header canonicalizer (modify_patch_file, src/main.py 293-324) -/

/-- The three replacement header lines of src/main.py lines 308-312; the
target path is hard coded to django/forms/widgets.py. -/
def newHeader : List (List Char) :=
  ["diff --git a/django/forms/widgets.py b/django/forms/widgets.py\n".toList,
    "--- a/django/forms/widgets.py\n".toList,
    "+++ b/django/forms/widgets.py\n".toList]

/-- The line-level core of modify_patch_file: the new header followed by
every line of the input from index 2 onward. -/
def modify_patch_file (lines : List (List Char)) : List (List Char) :=
  newHeader ++ lines.drop 2

/-- The canonical git-style header lines for a repo-relative path, as the
claims describe them. -/
def gitLine (p : List Char) : List Char :=
  "diff --git a/".toList ++ p ++ " b/".toList ++ p ++ ['\n']

/-- The canonical origin header line for a repo-relative path. -/
def fromLine (p : List Char) : List Char :=
  "--- a/".toList ++ p ++ ['\n']

/-- The canonical target header line for a repo-relative path. -/
def toLine (p : List Char) : List Char :=
  "+++ b/".toList ++ p ++ ['\n']

/-! ## File-level model of the write paths (src/main.py 257-264, 304-324, 427-442)

A file is `Option (List Char)` (none when absent).  A write either
completes or fails after a number of lines have been written; opening a
file in mode "w" truncates it before any line is written, as Python's
open does. -/

/-- Outcome of a writelines call: full success, or failure after the first
k lines were written (opening in mode "w" has already truncated). -/
inductive WriteOutcome where
  | ok
  | failAfter (k : Nat)
deriving DecidableEq

/-- File-level model of remove_docstrings_from_patch: read the patch file,
strip docstring additions, write the result back in place.  Returns the
resulting file state and the boolean the source returns. -/
def removeDocstringsFs (file : Option (List Char)) (w : WriteOutcome) :
    Option (List Char) × Bool :=
  match file with
  | none => (none, false)
  | some content =>
    let newLines := remove_docstrings_from_patch (pyReadlines content)
    match w with
    | .ok => (some newLines.flatten, true)
    | .failAfter k => (some (newLines.take k).flatten, false)

/-- File-level model of modify_patch_file: read the patch file, replace
the first two lines by the canonical header, write back in place. -/
def modifyPatchFs (file : Option (List Char)) (w : WriteOutcome) :
    Option (List Char) × Bool :=
  match file with
  | none => (none, false)
  | some content =>
    let newLines := modify_patch_file (pyReadlines content)
    match w with
    | .ok => (some newLines.flatten, true)
    | .failAfter k => (some (newLines.take k).flatten, false)

/-- The packaging sequence of main (src/main.py 430-442): docstring
removal, then header rewriting, then the JSONL record, each step skipped
when the previous one reports failure.  Returns the final patch file state
and whether the JSONL record is emitted. -/
def packageStep (file : Option (List Char)) (w1 w2 : WriteOutcome) :
    Option (List Char) × Bool :=
  let r1 := removeDocstringsFs file w1
  if r1.2 then
    let r2 := modifyPatchFs r1.1 w2
    if r2.2 then (r2.1, true) else (r2.1, false)
  else (r1.1, false)

/-! ## Diff synthesizer (generate_diff_patch, src/main.py 448-467)

Modelled from the spec: generate_diff_patch calls Python's stdlib
difflib.unified_diff, which is not part of this repository's sources; the
specification describes it as the standard unified-diff algorithm with
longest-common-subsequence line matching and a context width of 3.  The
model below computes an LCS edit script and groups it into hunks exactly
as difflib's get_grouped_opcodes does for context width n: the hunk before
a change keeps at most n trailing context lines, an equal run longer than
2n inside a diff splits the hunk, and at most n context lines survive at
either end. -/

/-- One line of an edit script: kept context, deletion, or insertion. -/
inductive DiffOp (α : Type) where
  | keep (x : α)
  | del (x : α)
  | ins (x : α)
deriving DecidableEq

/-- Length of a longest common subsequence. -/
def lcsLen {α : Type} [DecidableEq α] : List α → List α → Nat
  | [], _ => 0
  | _ :: _, [] => 0
  | x :: xs, y :: ys =>
    if x = y then lcsLen xs ys + 1
    else max (lcsLen (x :: xs) ys) (lcsLen xs (y :: ys))
termination_by a b => a.length + b.length

/-- LCS-based edit script between two line sequences. -/
def diffOps {α : Type} [DecidableEq α] : List α → List α → List (DiffOp α)
  | [], [] => []
  | [], y :: ys => .ins y :: diffOps [] ys
  | x :: xs, [] => .del x :: diffOps xs []
  | x :: xs, y :: ys =>
    if x = y then .keep x :: diffOps xs ys
    else if lcsLen (x :: xs) ys ≤ lcsLen xs (y :: ys) then .del x :: diffOps xs (y :: ys)
    else .ins y :: diffOps (x :: xs) ys
termination_by a b => a.length + b.length

/-- The original-side lines of an edit script (context and deletions). -/
def origOf {α : Type} : List (DiffOp α) → List α
  | [] => []
  | .keep x :: ops => x :: origOf ops
  | .del x :: ops => x :: origOf ops
  | .ins _ :: ops => origOf ops

/-- The new-side lines of an edit script (context and insertions). -/
def newOf {α : Type} : List (DiffOp α) → List α
  | [] => []
  | .keep x :: ops => x :: newOf ops
  | .del _ :: ops => newOf ops
  | .ins x :: ops => x :: newOf ops

/-- Apply an edit script to a prefix of the input lines: the produced
lines and the unconsumed remainder, or none when a context or deleted
line does not match the input. -/
def runOps {α : Type} [DecidableEq α] :
    List (DiffOp α) → List α → Option (List α × List α)
  | [], ys => some ([], ys)
  | .keep x :: ops, y :: ys =>
    if x = y then (runOps ops ys).map (fun r => (x :: r.1, r.2)) else none
  | .keep _ :: _, [] => none
  | .del x :: ops, y :: ys =>
    if x = y then runOps ops ys else none
  | .del _ :: _, [] => none
  | .ins x :: ops, ys => (runOps ops ys).map (fun r => (x :: r.1, r.2))

/-- Hunk grouping with context width n, one pass over the edit script.
pending holds the context lines seen since the last change; cur, when a
hunk is open, holds the lines to skip before the hunk and the hunk's ops
so far.  Mirrors difflib's get_grouped_opcodes: at most n context lines
open a hunk, an equal run longer than 2 n closes it, at most n context
lines end it. -/
def groupGo {α : Type} (n : Nat) (pending : List α)
    (cur : Option (Nat × List (DiffOp α))) :
    List (DiffOp α) → List (Nat × List (DiffOp α))
  | [] =>
    match cur with
    | none => []
    | some sk => [(sk.1, sk.2 ++ (pending.take n).map .keep)]
  | .keep x :: ops => groupGo n (pending ++ [x]) cur ops
  | .del x :: ops =>
    match cur with
    | none =>
      groupGo n [] (some (pending.length - n,
        (pending.drop (pending.length - n)).map .keep ++ [.del x])) ops
    | some sk =>
      if 2 * n < pending.length then
        (sk.1, sk.2 ++ (pending.take n).map .keep) ::
          groupGo n [] (some (pending.length - 2 * n,
            (pending.drop (pending.length - n)).map .keep ++ [.del x])) ops
      else
        groupGo n [] (some (sk.1, sk.2 ++ pending.map .keep ++ [.del x])) ops
  | .ins x :: ops =>
    match cur with
    | none =>
      groupGo n [] (some (pending.length - n,
        (pending.drop (pending.length - n)).map .keep ++ [.ins x])) ops
    | some sk =>
      if 2 * n < pending.length then
        (sk.1, sk.2 ++ (pending.take n).map .keep) ::
          groupGo n [] (some (pending.length - 2 * n,
            (pending.drop (pending.length - n)).map .keep ++ [.ins x])) ops
      else
        groupGo n [] (some (sk.1, sk.2 ++ pending.map .keep ++ [.ins x])) ops

/-- The hunks of the unified diff of two line sequences with context
width n: each hunk is the number of input lines to skip since the end of
the previous hunk (the gap a hunk header's range expresses) and the
hunk's body. -/
def unifiedDiffHunks {α : Type} [DecidableEq α] (n : Nat) (a b : List α) :
    List (Nat × List (DiffOp α)) :=
  groupGo n [] none (diffOps a b)

/-- The diff produced by generate_diff_patch: context width 3, as in
src/main.py line 463. -/
def generate_diff_patch (a b : List (List Char)) : List (Nat × List (DiffOp (List Char))) :=
  unifiedDiffHunks 3 a b

/-- Apply a unified diff, hunk by hunk: copy the skipped lines verbatim
from the input, run the hunk's body, and pass the remainder on; the lines
after the last hunk are copied verbatim. -/
def applyHunks {α : Type} [DecidableEq α] :
    List (Nat × List (DiffOp α)) → List α → Option (List α)
  | [], src => some src
  | h :: hs, src =>
    if h.1 ≤ src.length then
      match runOps h.2 (src.drop h.1) with
      | none => none
      | some r => (applyHunks hs r.2).map (fun t => src.take h.1 ++ r.1 ++ t)
    else none

/-! ## Lemmas about the stripper -/

/-- A line that does not begin with a plus sign is kept and leaves the
scan state unchanged. -/
theorem stripStep_not_plus (st : StripState) (l : List Char)
    (h : List.isPrefixOf ['+'] l = false) : stripStep st l = (st, true) := by
  simp [stripStep, h]

/-- Only a line beginning with a plus sign can be dropped. -/
theorem stripStep_drop_plus (st : StripState) (l : List Char)
    (h : (stripStep st l).2 = false) : List.isPrefixOf ['+'] l = true := by
  cases hcb : List.isPrefixOf ['+'] l with
  | true => rfl
  | false =>
    rw [stripStep_not_plus st l hcb] at h
    simp at h

/-- The scan preserves the subsequence of lines that do not begin with a
plus sign, from any starting state. -/
theorem stripRun_filter_not_plus (lines : List (List Char)) :
    ∀ st : StripState,
      ((stripRun st lines).1).filter (fun l => !(List.isPrefixOf ['+'] l)) =
        lines.filter (fun l => !(List.isPrefixOf ['+'] l)) := by
  induction lines with
  | nil => intro st; simp [stripRun]
  | cons l ls ih =>
    intro st
    cases hk : (stripStep st l).2 with
    | false =>
      have hp := stripStep_drop_plus st l hk
      simp [stripRun, hk, ih, hp]
    | true =>
      by_cases hp : List.isPrefixOf ['+'] l = true
      · simp [stripRun, hk, ih, hp]
      · simp only [Bool.not_eq_true] at hp
        simp [stripRun, hk, ih, hp]

/-- C1.  For every input diff, the docstring stripper keeps every line
that does not begin with a plus sign verbatim and in its original relative
order: the sequence of non-addition lines of the output equals the
sequence of non-addition lines of the input. -/
theorem stripper_preserves_non_addition_lines (lines : List (List Char)) :
    (remove_docstrings_from_patch lines).filter (fun l => !(List.isPrefixOf ['+'] l)) =
      lines.filter (fun l => !(List.isPrefixOf ['+'] l)) :=
  stripRun_filter_not_plus lines initialStripState

/-- C2.  In state INSIDE(d) the current addition line is dropped
unconditionally and the state returns to OUTSIDE exactly when the added
text contains the delimiter d anywhere; the three consecutive addition
lines of a multi-line docstring are all dropped and the state is OUTSIDE
after the third. -/
theorem stripper_inside_state :
    (∀ (d line : List Char), List.isPrefixOf ['+'] line = true → d ≠ [] →
      (stripStep ⟨true, some d⟩ line).2 = false ∧
      ((stripStep ⟨true, some d⟩ line).1 = initialStripState ↔
        containsSub d (line.drop 1) = true)) ∧
    stripRun initialStripState
        ["+    \"\"\"\n".toList, "+    Multi-line.\n".toList, "+    \"\"\"\n".toList] =
      ([], initialStripState) := by
  constructor
  · intro d line hp hd
    have hde : d.isEmpty = false := by
      cases d with
      | nil => exact absurd rfl hd
      | cons a t => rfl
    cases hc : containsSub d line.tail with
    | false =>
      simp [stripStep, hp, hde, List.drop_one, hc, initialStripState, StripState.mk.injEq]
    | true => simp [stripStep, hp, hde, List.drop_one, hc, initialStripState]
  · decide

/-- Witness for C2: a concrete closing line scanned in the INSIDE state. -/
theorem stripper_inside_state_witness :
    (stripStep ⟨true, some dq⟩ "+x\"\"\"y\n".toList).2 = false ∧
    ((stripStep ⟨true, some dq⟩ "+x\"\"\"y\n".toList).1 = initialStripState ↔
      containsSub dq ("+x\"\"\"y\n".toList.drop 1) = true) :=
  stripper_inside_state.1 dq "+x\"\"\"y\n".toList (by decide) (by decide)

/-- C3.  The single-line docstring addition line, whose trimmed added text
starts and ends with the triple double quote delimiter and has at least 6
characters, is dropped, the state after it is OUTSIDE, and an immediately
following ordinary addition line is kept; the same observable behaviour
holds for the line as read from a file with its trailing newline. -/
theorem stripper_single_line_docstring :
    (dq.isPrefixOf (pyLstrip ("+    \"\"\"This is a docstring.\"\"\"".toList.drop 1)) = true ∧
      dq.isSuffixOf (pyLstrip ("+    \"\"\"This is a docstring.\"\"\"".toList.drop 1)) = true ∧
      6 ≤ (pyLstrip ("+    \"\"\"This is a docstring.\"\"\"".toList.drop 1)).length) ∧
    stripRun initialStripState ["+    \"\"\"This is a docstring.\"\"\"".toList] =
      ([], initialStripState) ∧
    stripRun initialStripState
        ["+    \"\"\"This is a docstring.\"\"\"\n".toList, "+    x = 1\n".toList] =
      (["+    x = 1\n".toList], initialStripState) := by
  decide

/-- Counterexample to C4: the structural target-file header line, which
begins with three plus signs, is itself treated as an addition line; when
it is scanned while the state is INSIDE (here entered through an
unterminated docstring opener on the previous addition line) it is
dropped, so the output loses a structural line. -/
theorem stripper_structural_counterexample :
    List.isPrefixOf "+++".toList "+++ b/django/forms/widgets.py\n".toList = true ∧
    remove_docstrings_from_patch
        ["+\"\"\"\n".toList, "+++ b/django/forms/widgets.py\n".toList] = [] := by
  decide

/-- C4 amended.  Every line that does not begin with a plus sign, which
covers the diff --git marker, the --- header and every @@ hunk marker, is
kept verbatim with the state unchanged in every scan state; a line
beginning with three plus signs is kept with the state unchanged whenever
it is scanned in the OUTSIDE state, which is where it stands in any diff
produced by the synthesizer, but not in the INSIDE state. -/
theorem stripper_structural_amended :
    (∀ (st : StripState) (l : List Char), List.isPrefixOf ['+'] l = false →
      stripStep st l = (st, true)) ∧
    (∀ t : List Char,
      stripStep initialStripState ('+' :: '+' :: '+' :: t) = (initialStripState, true)) := by
  constructor
  · exact stripStep_not_plus
  · intro t
    have h1 : isPySpace '+' = false := by decide
    have h2 : ∀ u : List Char, dq.isPrefixOf ('+' :: u) = false := by
      intro u; simp [dq, List.isPrefixOf]
    have h3 : ∀ u : List Char, sqt.isPrefixOf ('+' :: u) = false := by
      intro u; simp [sqt, List.isPrefixOf]
    simp [stripStep, initialStripState, List.isPrefixOf, h1, h2, h3]

/-- Witness for C4 amended: a hunk marker in the INSIDE state and a
concrete target-file header line in the OUTSIDE state are both kept. -/
theorem stripper_structural_amended_witness :
    stripStep ⟨true, some dq⟩ "@@ -1,3 +1,3 @@\n".toList = (⟨true, some dq⟩, true) ∧
    stripStep initialStripState ('+' :: '+' :: '+' :: " b/x\n".toList) =
      (initialStripState, true) :=
  ⟨stripper_structural_amended.1 ⟨true, some dq⟩ "@@ -1,3 +1,3 @@\n".toList (by decide),
    stripper_structural_amended.2 " b/x\n".toList⟩

/-! ## Header canonicalization -/

/-- The repo-relative path hard coded in modify_patch_file. -/
def widgetsPath : List Char := "django/forms/widgets.py".toList

/-- Counterexample to C5: header canonicalization takes no target path;
the replacement header always names django/forms/widgets.py, so for the
target path pkg/mod.py of the claim the first output line is not the
claimed git marker. -/
theorem header_canonicalization_counterexample :
    ¬ (∀ lines : List (List Char), 2 ≤ lines.length →
        (modify_patch_file lines).take 3 =
          [gitLine "pkg/mod.py".toList, fromLine "pkg/mod.py".toList,
            toLine "pkg/mod.py".toList] ∧
        (modify_patch_file lines).drop 3 = lines.drop 2) := by
  intro h
  have h2 := (h ["h1\n".toList, "h2\n".toList] (by decide)).1
  revert h2
  decide

/-- C5 amended.  For every diff with at least two lines, header
canonicalization replaces exactly the first two lines: the first three
output lines are the canonical git-style header for the hard-coded path
django/forms/widgets.py, and every line from input index 2 onward is
unchanged. -/
theorem header_canonicalization_amended (lines : List (List Char))
    (h : 2 ≤ lines.length) :
    (modify_patch_file lines).take 3 =
      [gitLine widgetsPath, fromLine widgetsPath, toLine widgetsPath] ∧
    (modify_patch_file lines).drop 3 = lines.drop 2 := by
  have hh : newHeader = [gitLine widgetsPath, fromLine widgetsPath, toLine widgetsPath] := by
    decide
  constructor
  · rw [modify_patch_file, show (3 : Nat) = newHeader.length from rfl, List.take_left, hh]
  · rw [modify_patch_file, show (3 : Nat) = newHeader.length from rfl, List.drop_left]

/-- Witness for C5 amended at a concrete three-line diff. -/
theorem header_canonicalization_amended_witness :
    (modify_patch_file ["h1\n".toList, "h2\n".toList, " ctx\n".toList]).take 3 =
      [gitLine widgetsPath, fromLine widgetsPath, toLine widgetsPath] ∧
    (modify_patch_file ["h1\n".toList, "h2\n".toList, " ctx\n".toList]).drop 3 =
      ["h1\n".toList, "h2\n".toList, " ctx\n".toList].drop 2 :=
  header_canonicalization_amended ["h1\n".toList, "h2\n".toList, " ctx\n".toList] (by decide)

/-! ## Code extractor: error behaviour -/

/-- Counterexample to C6: a blob with no fenced block and no recognised
code-start token is not rejected by the extractor; the code returns the
blob itself while the specification's extractor signals an error. -/
theorem extractor_no_error_counterexample :
    searchBlock pyOpen "hello world".toList = none ∧
    searchBlock plainOpen "hello world".toList = none ∧
    startsCodeToken (pyStrip "hello world".toList) = false ∧
    extract_code_from_output "hello world".toList = "hello world".toList ∧
    extract_code_spec "hello world".toList = none := by
  decide

/-- C6 amended.  When no fenced block matches, the extractor never fails:
it returns the blob unchanged whether or not a code-start token is
recognised (only the caller treats an empty extraction as an error). -/
theorem extractor_fallback_amended (output : List Char)
    (h1 : searchBlock pyOpen output = none)
    (h2 : searchBlock plainOpen output = none) :
    extract_code_from_output output = output := by
  unfold extract_code_from_output
  rw [h1, h2]
  exact ite_self output

/-- Witness for C6 amended at a concrete tokenless blob. -/
theorem extractor_fallback_amended_witness :
    extract_code_from_output "hello world".toList = "hello world".toList :=
  extractor_fallback_amended "hello world".toList (by decide) (by decide)

/-! ## Cleanup idempotence -/

/-- Counterexample to C8: on a blob opening with six backticks followed by
the python tag, one cleanup pass exposes a fresh python-tagged fence, so a
second pass strips further and the function is not idempotent. -/
theorem clean_code_output_not_idempotent :
    clean_code_output (clean_code_output "``````python foo".toList) ≠
      clean_code_output "``````python foo".toList := by
  decide

/-- A text that neither begins with a fence-open marker nor ends with a
fence-close marker is a fixed point of clean_code_output. -/
theorem clean_code_output_fixed (t : List Char)
    (hp : fence.isPrefixOf t = false) (hs : fence.isSuffixOf t = false) :
    clean_code_output t = t := by
  have hpf : pyFenceTag.isPrefixOf t = false := by
    cases hc : pyFenceTag.isPrefixOf t with
    | false => rfl
    | true =>
      exfalso
      have hA : pyFenceTag <+: t := List.isPrefixOf_iff_prefix.mp hc
      have hB : fence <+: pyFenceTag := by decide
      have hC : fence.isPrefixOf t = true :=
        List.isPrefixOf_iff_prefix.mpr (hB.trans hA)
      rw [hC] at hp
      exact Bool.true_eq_false.mp hp
  simp [clean_code_output, hpf, hp, hs]

/-- C8 amended.  The cleanup is not idempotent in general; it is
idempotent on every input whose one-pass output neither begins with a
fence-open marker nor ends with a fence-close marker. -/
theorem clean_code_output_conditional_idempotent (s : List Char)
    (hp : fence.isPrefixOf (clean_code_output s) = false)
    (hs : fence.isSuffixOf (clean_code_output s) = false) :
    clean_code_output (clean_code_output s) = clean_code_output s :=
  clean_code_output_fixed (clean_code_output s) hp hs

/-- Witness for C8 amended at a concrete fence-free blob. -/
theorem clean_code_output_conditional_idempotent_witness :
    clean_code_output (clean_code_output "```python\nx = 1\n```".toList) =
      clean_code_output "```python\nx = 1\n```".toList :=
  clean_code_output_conditional_idempotent "```python\nx = 1\n```".toList
    (by decide) (by decide)

/-! ## Write-failure behaviour of the packaging sequence -/

/-- Counterexample to C9: the write path truncates the patch file in
place; when the write fails after one line, the file holds a strict
prefix of the new content, which is neither the prior content nor the
full corrected content, even though the failure is correctly reported. -/
theorem package_partial_write_counterexample :
    (packageStep (some "A\nB\n".toList) (.failAfter 1) .ok).1 ≠ some "A\nB\n".toList ∧
    (packageStep (some "A\nB\n".toList) (.failAfter 1) .ok).1 ≠
      some (remove_docstrings_from_patch (pyReadlines "A\nB\n".toList)).flatten ∧
    (packageStep (some "A\nB\n".toList) (.failAfter 1) .ok).2 = false := by
  decide

/-- C9 amended.  A failure while writing during docstring sanitization or
header rewriting is never surfaced as success: the failing step reports
false and no JSONL record is emitted; the prior file content, however, is
not preserved, because the file is truncated in place before writing. -/
theorem package_failure_no_success (file : Option (List Char))
    (w1 w2 : WriteOutcome) (h : w1 ≠ .ok ∨ w2 ≠ .ok) :
    (packageStep file w1 w2).2 = false := by
  cases w1 <;> cases w2 <;> cases file <;>
    simp_all [packageStep, removeDocstringsFs, modifyPatchFs]

/-- Witness for C9 amended: a concrete failing sanitization write. -/
theorem package_failure_no_success_witness :
    (packageStep (some "A\nB\n".toList) (.failAfter 1) .ok).2 = false :=
  package_failure_no_success (some "A\nB\n".toList) (.failAfter 1) .ok
    (Or.inl (by decide))

/-! ## Leftmost-match lemmas for the extractor -/

/-- findFrom returns the position right after a prefix region containing
no occurrence of the pattern, when the pattern occurs there. -/
theorem findFrom_append (pat : List Char) (hne : pat ≠ []) :
    ∀ (u rest : List Char),
      (∀ j, j < u.length → pat.isPrefixOf ((u ++ rest).drop j) = false) →
      pat.isPrefixOf rest = true →
      findFrom pat (u ++ rest) = some u.length := by
  intro u
  induction u with
  | nil =>
    intro rest _ hpre
    cases rest with
    | nil =>
      exfalso
      cases pat with
      | nil => exact hne rfl
      | cons a t => simp [List.isPrefixOf] at hpre
    | cons c t =>
      simp only [List.nil_append, List.length_nil]
      rw [findFrom, if_pos hpre]
  | cons c u ih =>
    intro rest hnone hpre
    have h0 : pat.isPrefixOf (c :: (u ++ rest)) = false := by
      have := hnone 0 (by simp)
      simpa using this
    rw [List.cons_append, findFrom, if_neg (by simp [h0])]
    have hrec : findFrom pat (u ++ rest) = some u.length := by
      apply ih rest _ hpre
      intro j hj
      have := hnone (j + 1) (by simpa using Nat.succ_lt_succ hj)
      simpa using this
    rw [hrec]
    simp [List.length_cons]

/-- The fenced-block search returns the interior bounded by the earliest
opening marker and the nearest closing fence after it. -/
theorem searchBlock_first (opn : List Char) (hne : opn ≠ []) (u a w : List Char)
    (h1 : ∀ j, j < u.length →
      opn.isPrefixOf ((u ++ (opn ++ (a ++ (fence ++ w)))).drop j) = false)
    (h2 : ∀ j, j < a.length → fence.isPrefixOf ((a ++ (fence ++ w)).drop j) = false) :
    searchBlock opn (u ++ (opn ++ (a ++ (fence ++ w)))) = some a := by
  have hf1 : findFrom opn (u ++ (opn ++ (a ++ (fence ++ w)))) = some u.length := by
    apply findFrom_append opn hne u _ h1
    exact List.isPrefixOf_iff_prefix.mpr (List.prefix_append opn (a ++ (fence ++ w)))
  have hdrop : (u ++ (opn ++ (a ++ (fence ++ w)))).drop (u.length + opn.length) =
      a ++ (fence ++ w) := by
    have hs : u ++ (opn ++ (a ++ (fence ++ w))) = (u ++ opn) ++ (a ++ (fence ++ w)) := by
      simp [List.append_assoc]
    rw [hs, ← List.length_append u opn, List.drop_left]
  have hf2 : findFrom fence (a ++ (fence ++ w)) = some a.length := by
    apply findFrom_append fence (by decide) a _ h2
    exact List.isPrefixOf_iff_prefix.mpr (List.prefix_append fence w)
  simp only [searchBlock, hf1, hdrop, hf2]
  rw [List.take_left]

/-- C10.  When the blob contains several fenced blocks of the same kind,
the extractor returns the interior of the earliest opening marker (up to
the nearest closing fence) and ignores all later blocks; a python-tagged
fence only matches when the tag is immediately followed by a newline, as
the two concrete blobs show. -/
theorem extractor_earliest_block :
    (∀ u a w : List Char,
      (∀ j, j < u.length →
        pyOpen.isPrefixOf ((u ++ (pyOpen ++ (a ++ (fence ++ w)))).drop j) = false) →
      (∀ j, j < a.length → fence.isPrefixOf ((a ++ (fence ++ w)).drop j) = false) →
      extract_code_from_output (u ++ (pyOpen ++ (a ++ (fence ++ w)))) = a) ∧
    extract_code_from_output "x\n```python\nA\n```\ny\n```python\nB\n```\n".toList =
      "A\n".toList ∧
    extract_code_from_output "```python A``` and ```python\nB\n```".toList =
      "B\n".toList := by
  refine ⟨?_, by decide, by decide⟩
  intro u a w h1 h2
  have hs := searchBlock_first pyOpen (by decide) u a w h1 h2
  simp only [extract_code_from_output, hs]

/-- Witness for C10: the general statement applied to a concrete blob
with two python-tagged blocks. -/
theorem extractor_earliest_block_witness :
    extract_code_from_output
        ("z\n".toList ++ (pyOpen ++ ("A\n".toList ++ (fence ++ "\n```python\nB\n```".toList)))) =
      "A\n".toList :=
  extractor_earliest_block.1 "z\n".toList "A\n".toList "\n```python\nB\n```".toList
    (by decide) (by decide)

/-! ## Round-trip of the diff synthesizer -/

/-- The original side of the LCS edit script is the first input. -/
theorem origOf_diffOps {α : Type} [DecidableEq α] (a b : List α) :
    origOf (diffOps a b) = a := by
  induction a, b using diffOps.induct with
  | case1 => simp [diffOps, origOf]
  | case2 y ys ih => simpa [diffOps, origOf] using ih
  | case3 x xs ih => simpa [diffOps, origOf] using ih
  | case4 xs y ys ih => simpa [diffOps, origOf] using ih
  | case5 x xs y ys hne hle ih => simp [diffOps, origOf, hne, hle, ih]
  | case6 x xs y ys hne hle ih => simp [diffOps, origOf, hne, hle, ih]

/-- The new side of the LCS edit script is the second input. -/
theorem newOf_diffOps {α : Type} [DecidableEq α] (a b : List α) :
    newOf (diffOps a b) = b := by
  induction a, b using diffOps.induct with
  | case1 => simp [diffOps, newOf]
  | case2 y ys ih => simpa [diffOps, newOf] using ih
  | case3 x xs ih => simpa [diffOps, newOf] using ih
  | case4 xs y ys ih => simpa [diffOps, newOf] using ih
  | case5 x xs y ys hne hle ih => simp [diffOps, newOf, hne, hle, ih]
  | case6 x xs y ys hne hle ih => simp [diffOps, newOf, hne, hle, ih]

/-- origOf distributes over append. -/
theorem origOf_append {α : Type} (xs ys : List (DiffOp α)) :
    origOf (xs ++ ys) = origOf xs ++ origOf ys := by
  induction xs with
  | nil => simp [origOf]
  | cons op rest ih => cases op <;> simp [origOf, ih]

/-- newOf distributes over append. -/
theorem newOf_append {α : Type} (xs ys : List (DiffOp α)) :
    newOf (xs ++ ys) = newOf xs ++ newOf ys := by
  induction xs with
  | nil => simp [newOf]
  | cons op rest ih => cases op <;> simp [newOf, ih]

/-- A run of kept lines reads back as itself on the original side. -/
theorem origOf_mapKeep {α : Type} (ks : List α) :
    origOf (ks.map DiffOp.keep) = ks := by
  induction ks with
  | nil => simp [origOf]
  | cons k rest ih => simp [origOf, ih]

/-- A run of kept lines reads back as itself on the new side. -/
theorem newOf_mapKeep {α : Type} (ks : List α) :
    newOf (ks.map DiffOp.keep) = ks := by
  induction ks with
  | nil => simp [newOf]
  | cons k rest ih => simp [newOf, ih]

/-- Running an edit script on its own original side consumes exactly that
side and produces the new side, leaving the remainder untouched. -/
theorem runOps_origOf {α : Type} [DecidableEq α] (ops : List (DiffOp α)) :
    ∀ ys : List α, runOps ops (origOf ops ++ ys) = some (newOf ops, ys) := by
  induction ops with
  | nil => intro ys; simp [runOps, origOf, newOf]
  | cons op rest ih =>
    intro ys
    cases op with
    | keep x => simp [origOf, newOf, runOps, ih]
    | del x => simp [origOf, newOf, runOps, ih]
    | ins x => simp [origOf, newOf, runOps, ih]

/-- Three-piece decomposition of a list around its two context borders. -/
theorem take_mid_drop {α : Type} (n : Nat) (l : List α) (h : 2 * n < l.length) :
    l.take n ++ ((l.drop n).take (l.length - 2 * n) ++ l.drop (l.length - n)) = l := by
  have h2 : l.drop (l.length - n) = (l.drop n).drop (l.length - 2 * n) := by
    rw [List.drop_drop]
    congr 1
    omega
  rw [h2, List.take_append_drop, List.take_append_drop]

/-- One hunk application step, with the skip given by a concrete prefix. -/
theorem applyHunks_cons_of {α : Type} [DecidableEq α]
    (pre : List α) (hops : List (DiffOp α)) (hs : List (Nat × List (DiffOp α)))
    (ys out rem fin : List α)
    (h1 : runOps hops ys = some (out, rem))
    (h2 : applyHunks hs rem = some fin) :
    applyHunks ((pre.length, hops) :: hs) (pre ++ ys) = some (pre ++ (out ++ fin)) := by
  have hle : pre.length ≤ (pre ++ ys).length := by
    simp [List.length_append]
  simp only [applyHunks, hle, if_true, List.drop_left, h1, h2, Option.map_some,
    List.take_left]
  simp [List.append_assoc]


/-- Invariant of the hunk grouping with an open hunk: applying the
produced hunks to the original-side lines, prefixed by the skipped lines,
yields the new-side lines. -/
theorem groupGo_apply_open {α : Type} [DecidableEq α] (n : Nat)
    (ops : List (DiffOp α)) :
    ∀ (pending pre tail : List α) (acc : List (DiffOp α)),
      applyHunks (groupGo n pending (some (pre.length, acc)) ops)
          (pre ++ (origOf acc ++ (pending ++ (origOf ops ++ tail)))) =
        some (pre ++ (newOf acc ++ (pending ++ (newOf ops ++ tail)))) := by
  induction ops with
  | nil =>
    intro pending pre tail acc
    simp only [groupGo]
    have hsrc : origOf acc ++ (pending ++ (origOf ([] : List (DiffOp α)) ++ tail)) =
        origOf (acc ++ (pending.take n).map DiffOp.keep) ++ (pending.drop n ++ tail) := by
      conv_lhs => rw [← List.take_append_drop n pending]
      simp only [origOf_append, origOf_mapKeep, origOf, List.append_assoc,
        List.nil_append, List.append_nil]
    rw [hsrc]
    rw [applyHunks_cons_of pre (acc ++ (pending.take n).map DiffOp.keep) []
      _ _ _ _ (runOps_origOf _ (pending.drop n ++ tail)) rfl]
    congr 1
    conv_rhs => rw [← List.take_append_drop n pending]
    simp only [newOf_append, newOf_mapKeep, newOf, List.append_assoc,
      List.nil_append, List.append_nil]
  | cons op ops ih =>
    cases op with
    | keep x =>
      intro pending pre tail acc
      simp only [groupGo]
      have h := ih (pending ++ [x]) pre tail acc
      simp only [origOf, newOf, List.append_assoc, List.cons_append,
        List.singleton_append, List.nil_append, List.append_nil] at h ⊢
      exact h
    | del x =>
      intro pending pre tail acc
      by_cases hbig : 2 * n < pending.length
      · simp only [groupGo, if_pos hbig]
        have hmidlen : ((pending.drop n).take (pending.length - 2 * n)).length =
            pending.length - 2 * n := by
          rw [List.length_take, List.length_drop]
          omega
        rw [← hmidlen]
        have hih := ih [] ((pending.drop n).take (pending.length - 2 * n)) tail
          ((pending.drop (pending.length - n)).map DiffOp.keep ++ [DiffOp.del x])
        simp only [origOf_append, origOf_mapKeep, newOf_append, newOf_mapKeep, origOf,
          newOf, List.append_assoc, List.cons_append, List.singleton_append,
          List.nil_append, List.append_nil] at hih
        have hsrc : origOf acc ++ (pending ++ (origOf (DiffOp.del x :: ops) ++ tail)) =
            origOf (acc ++ (pending.take n).map DiffOp.keep) ++
              ((pending.drop n).take (pending.length - 2 * n) ++
                (pending.drop (pending.length - n) ++ (x :: (origOf ops ++ tail)))) := by
          conv_lhs => rw [← take_mid_drop n pending hbig]
          simp only [origOf_append, origOf_mapKeep, origOf, List.append_assoc,
            List.cons_append, List.singleton_append, List.nil_append, List.append_nil]
        rw [hsrc]
        rw [applyHunks_cons_of pre (acc ++ (pending.take n).map DiffOp.keep)
          _ _ _ _ _ (runOps_origOf _ ((pending.drop n).take (pending.length - 2 * n) ++
            (pending.drop (pending.length - n) ++ (x :: (origOf ops ++ tail))))) hih]
        congr 1
        conv_rhs => rw [← take_mid_drop n pending hbig]
        simp only [newOf_append, newOf_mapKeep, newOf, List.append_assoc,
          List.cons_append, List.singleton_append, List.nil_append, List.append_nil]
      · simp only [groupGo, if_neg hbig]
        have h := ih [] pre tail (acc ++ pending.map DiffOp.keep ++ [DiffOp.del x])
        simp only [origOf_append, origOf_mapKeep, newOf_append, newOf_mapKeep, origOf,
          newOf, List.append_assoc, List.cons_append, List.singleton_append,
          List.nil_append, List.append_nil] at h ⊢
        exact h
    | ins x =>
      intro pending pre tail acc
      by_cases hbig : 2 * n < pending.length
      · simp only [groupGo, if_pos hbig]
        have hmidlen : ((pending.drop n).take (pending.length - 2 * n)).length =
            pending.length - 2 * n := by
          rw [List.length_take, List.length_drop]
          omega
        rw [← hmidlen]
        have hih := ih [] ((pending.drop n).take (pending.length - 2 * n)) tail
          ((pending.drop (pending.length - n)).map DiffOp.keep ++ [DiffOp.ins x])
        simp only [origOf_append, origOf_mapKeep, newOf_append, newOf_mapKeep, origOf,
          newOf, List.append_assoc, List.cons_append, List.singleton_append,
          List.nil_append, List.append_nil] at hih
        have hsrc : origOf acc ++ (pending ++ (origOf (DiffOp.ins x :: ops) ++ tail)) =
            origOf (acc ++ (pending.take n).map DiffOp.keep) ++
              ((pending.drop n).take (pending.length - 2 * n) ++
                (pending.drop (pending.length - n) ++ (origOf ops ++ tail))) := by
          conv_lhs => rw [← take_mid_drop n pending hbig]
          simp only [origOf_append, origOf_mapKeep, origOf, List.append_assoc,
            List.cons_append, List.singleton_append, List.nil_append, List.append_nil]
        rw [hsrc]
        rw [applyHunks_cons_of pre (acc ++ (pending.take n).map DiffOp.keep)
          _ _ _ _ _ (runOps_origOf _ ((pending.drop n).take (pending.length - 2 * n) ++
            (pending.drop (pending.length - n) ++ (origOf ops ++ tail)))) hih]
        congr 1
        conv_rhs => rw [← take_mid_drop n pending hbig]
        simp only [newOf_append, newOf_mapKeep, newOf, List.append_assoc,
          List.cons_append, List.singleton_append, List.nil_append, List.append_nil]
      · simp only [groupGo, if_neg hbig]
        have h := ih [] pre tail (acc ++ pending.map DiffOp.keep ++ [DiffOp.ins x])
        simp only [origOf_append, origOf_mapKeep, newOf_append, newOf_mapKeep, origOf,
          newOf, List.append_assoc, List.cons_append, List.singleton_append,
          List.nil_append, List.append_nil] at h ⊢
        exact h

/-- Invariant of the hunk grouping before any hunk is open: applying the
produced hunks to the original-side lines yields the new-side lines. -/
theorem groupGo_apply_none {α : Type} [DecidableEq α] (n : Nat)
    (ops : List (DiffOp α)) :
    ∀ (pending tail : List α),
      applyHunks (groupGo n pending none ops) (pending ++ (origOf ops ++ tail)) =
        some (pending ++ (newOf ops ++ tail)) := by
  induction ops with
  | nil =>
    intro pending tail
    simp only [groupGo, applyHunks, origOf, newOf]
  | cons op ops ih =>
    cases op with
    | keep x =>
      intro pending tail
      simp only [groupGo]
      have h := ih (pending ++ [x]) tail
      simp only [origOf, newOf, List.append_assoc, List.cons_append,
        List.singleton_append, List.nil_append, List.append_nil] at h ⊢
      exact h
    | del x =>
      intro pending tail
      simp only [groupGo]
      have hlen : (pending.take (pending.length - n)).length = pending.length - n := by
        rw [List.length_take]
        omega
      have h := groupGo_apply_open n ops [] (pending.take (pending.length - n)) tail
        ((pending.drop (pending.length - n)).map DiffOp.keep ++ [DiffOp.del x])
      simp only [origOf_append, origOf_mapKeep, newOf_append, newOf_mapKeep, origOf,
        newOf, List.append_assoc, List.cons_append, List.singleton_append,
        List.nil_append, List.append_nil] at h
      rw [hlen] at h
      have hsrc : pending ++ (origOf (DiffOp.del x :: ops) ++ tail) =
          pending.take (pending.length - n) ++
            (pending.drop (pending.length - n) ++ (x :: (origOf ops ++ tail))) := by
        conv_lhs => rw [← List.take_append_drop (pending.length - n) pending]
        simp only [origOf, List.append_assoc, List.cons_append, List.nil_append]
      rw [hsrc, h]
      congr 1
      conv_rhs => rw [← List.take_append_drop (pending.length - n) pending]
      simp only [newOf, List.append_assoc, List.cons_append, List.nil_append]
    | ins x =>
      intro pending tail
      simp only [groupGo]
      have hlen : (pending.take (pending.length - n)).length = pending.length - n := by
        rw [List.length_take]
        omega
      have h := groupGo_apply_open n ops [] (pending.take (pending.length - n)) tail
        ((pending.drop (pending.length - n)).map DiffOp.keep ++ [DiffOp.ins x])
      simp only [origOf_append, origOf_mapKeep, newOf_append, newOf_mapKeep, origOf,
        newOf, List.append_assoc, List.cons_append, List.singleton_append,
        List.nil_append, List.append_nil] at h
      rw [hlen] at h
      have hsrc : pending ++ (origOf (DiffOp.ins x :: ops) ++ tail) =
          pending.take (pending.length - n) ++
            (pending.drop (pending.length - n) ++ (origOf ops ++ tail)) := by
        conv_lhs => rw [← List.take_append_drop (pending.length - n) pending]
        simp only [origOf, List.append_assoc, List.cons_append, List.nil_append]
      rw [hsrc, h]
      congr 1
      conv_rhs => rw [← List.take_append_drop (pending.length - n) pending]
      simp only [newOf, List.append_assoc, List.cons_append, List.nil_append]

/-- C7.  Applying the unified diff produced by the diff synthesizer with
context width 3 to the original line sequence reproduces the fixed line
sequence exactly, for every pair of line sequences. -/
theorem generate_diff_patch_roundtrip (a b : List (List Char)) :
    applyHunks (generate_diff_patch a b) a = some b := by
  have h := groupGo_apply_none 3 (diffOps a b) [] []
  simp only [List.nil_append, List.append_nil, origOf_diffOps, newOf_diffOps] at h
  simpa [generate_diff_patch, unifiedDiffHunks] using h

/-- Witness for C1: a concrete diff with context, deletion, structural and
addition lines. -/
theorem stripper_preserves_non_addition_lines_witness :
    (remove_docstrings_from_patch
        [" ctx\n".toList, "-old\n".toList, "+    \"\"\"doc\"\"\"\n".toList,
          "@@ -1,2 +1,2 @@\n".toList]).filter (fun l => !(List.isPrefixOf ['+'] l)) =
      ([" ctx\n".toList, "-old\n".toList, "+    \"\"\"doc\"\"\"\n".toList,
        "@@ -1,2 +1,2 @@\n".toList]).filter (fun l => !(List.isPrefixOf ['+'] l)) :=
  stripper_preserves_non_addition_lines
    [" ctx\n".toList, "-old\n".toList, "+    \"\"\"doc\"\"\"\n".toList,
      "@@ -1,2 +1,2 @@\n".toList]

/-- Witness for C7: the round trip at a concrete pair of line sequences. -/
theorem generate_diff_patch_roundtrip_witness :
    applyHunks
        (generate_diff_patch ["a\n".toList, "b\n".toList, "c\n".toList]
          ["a\n".toList, "x\n".toList, "c\n".toList, "d\n".toList])
        ["a\n".toList, "b\n".toList, "c\n".toList] =
      some ["a\n".toList, "x\n".toList, "c\n".toList, "d\n".toList] :=
  generate_diff_patch_roundtrip ["a\n".toList, "b\n".toList, "c\n".toList]
    ["a\n".toList, "x\n".toList, "c\n".toList, "d\n".toList]
